import Mathlib

/-!
# Stake-tracker pallet: shallow embedding and verification

This file embeds the stake-tracker engine of the repository (the six
`OnStakingUpdate` lifecycle hooks, the approval-stake ledger, and the two
external rankings) and proves or refutes the frozen claims about it.

The pallet's `lib.rs` is not part of the source tree; only its test suite
(`frame/stake-tracker/src/tests.rs`) is.  Hook behaviour is therefore
modelled from the specification (sections 3, 4.2 and 4.3), with every point
on which the in-tree tests pin the behaviour down taken from the tests:

* `on_nominator_update::works_for_everyone` shows that the hook inserts an
  absent identity into the voter ranking (`VoterList::get_score(&id).unwrap()`
  succeeds for ids that started outside the list), so the voter-ranking write
  is an upsert, not an overwrite-if-present;
* `on_nominator_update::noop_when_in_the_list` is a full storage no-op for
  nominator 20 — which nominates `[10, 11]` per `on_stake_update::empty_lists` —
  when called with an empty previous-target list, so the hook performs no
  ledger increment for newly nominated targets (their stake arrives through
  `on_stake_update`, as in `empty_lists`).

Identities and amounts are `Nat`; ledger arithmetic uses signed deltas on
unsigned stored amounts, with underflow surfacing as a fatal abort (`none`),
per the design notes.  Fallible hooks return `Option TrackerState`, `none`
standing for the panic-equivalent abort.
-/

/-- A stake record of the staking source: `Stake { active, total }`. -/
structure Stake where
  active : Nat
  total : Nat
deriving Repr, DecidableEq

/-- Identity status in the staking source: `Validator`, `Nominator(targets)`
or `Idle/Unbonded`. -/
inductive StakerStatus where
  | validator : StakerStatus
  | nominator : List Nat → StakerStatus
  | idle : StakerStatus
deriving Repr, DecidableEq

/-- The staking source's full record for one identity. -/
structure StakerInfo where
  stake : Stake
  status : StakerStatus
deriving Repr, DecidableEq

/-- The staking source (external collaborator), as a finite association list
from identity to its record.  An identity absent from the list has no stake
record and `Idle/Unbonded` status. -/
abbrev StakingSource := List (Nat × StakerInfo)

/-- The approval-stake ledger: association list `TargetId → Amount`. -/
abbrev Ledger := List (Nat × Nat)

/-- A ranked index (voter or target ranking): association list `Id → Score`.
Ordering is irrelevant to the claims, so only the map view is modelled. -/
abbrev Ranking := List (Nat × Nat)

/-- The storage owned or written by the tracker: the ledger and the two
external rankings. -/
structure TrackerState where
  ledger : Ledger
  voterList : Ranking
  targetList : Ranking
deriving Repr, DecidableEq

/-! ## Association-list primitives -/

/-- Lookup of the first entry with the given key. -/
def alGet {α : Type} : List (Nat × α) → Nat → Option α
  | [], _ => none
  | p :: rest, k => if p.1 = k then some p.2 else alGet rest k

/-- Overwrite the value stored at a key (no effect on absent keys). -/
def alSet {α : Type} : List (Nat × α) → Nat → α → List (Nat × α)
  | [], _, _ => []
  | p :: rest, k, v => (if p.1 = k then (k, v) else p) :: alSet rest k v

/-- Remove all entries with the given key. -/
def alRemove {α : Type} : List (Nat × α) → Nat → List (Nat × α)
  | [], _ => []
  | p :: rest, k => if p.1 = k then alRemove rest k else p :: alRemove rest k

/-- The keys of an association list. -/
def alKeys {α : Type} (l : List (Nat × α)) : List Nat :=
  l.map Prod.fst

/-- Key membership. -/
def alContains {α : Type} (l : List (Nat × α)) (k : Nat) : Bool :=
  (alGet l k).isSome

@[simp] theorem alGet_nil {α : Type} (k : Nat) : alGet ([] : List (Nat × α)) k = none := rfl

@[simp] theorem alGet_cons {α : Type} (p : Nat × α) (rest : List (Nat × α)) (k : Nat) :
    alGet (p :: rest) k = if p.1 = k then some p.2 else alGet rest k := rfl

theorem alGet_mem {α : Type} {l : List (Nat × α)} {k : Nat} {v : α}
    (h : alGet l k = some v) : (k, v) ∈ l := by
  induction l with
  | nil => simp at h
  | cons p rest ih =>
    by_cases hp : p.1 = k
    · simp only [alGet_cons, hp, if_pos, Option.some.injEq] at h
      have : (k, v) = p := by
        cases p
        simp only [Prod.mk.injEq]
        exact ⟨hp.symm, h.symm⟩
      rw [this]
      exact List.mem_cons_self p rest
    · simp only [alGet_cons, hp, if_false, ite_false] at h
      exact List.mem_cons_of_mem p (ih h)

theorem alGet_none_iff {α : Type} {l : List (Nat × α)} {k : Nat} :
    alGet l k = none ↔ k ∉ alKeys l := by
  induction l with
  | nil => simp [alKeys]
  | cons p rest ih =>
    by_cases hp : p.1 = k
    · constructor
      · intro h
        simp [alGet, hp] at h
      · intro h
        exact absurd (by simp [alKeys, hp]) h
    · simp [alGet, hp, alKeys, ih]
      intro h
      exact fun he => hp he.symm

theorem alGet_alSet_self {α : Type} {l : List (Nat × α)} {k : Nat}
    (h : (alGet l k).isSome = true) (w : α) : alGet (alSet l k w) k = some w := by
  induction l with
  | nil => simp [alGet] at h
  | cons p rest ih =>
    by_cases hp : p.1 = k
    · simp [alGet, alSet, hp]
    · simp [alGet, alSet, hp] at h ⊢
      exact ih h

theorem alGet_alSet_ne {α : Type} (l : List (Nat × α)) (k : Nat) (w : α) {x : Nat}
    (hx : x ≠ k) : alGet (alSet l k w) x = alGet l x := by
  induction l with
  | nil => rfl
  | cons p rest ih =>
    by_cases hp : p.1 = k
    · have hkx : k ≠ x := fun he => hx he.symm
      simp [alGet, alSet, hp, hkx]
      exact ih
    · simp only [alSet, hp, ite_false, alGet_cons]
      rw [ih]

theorem alSet_of_not_mem {α : Type} {l : List (Nat × α)} {k : Nat} (v : α)
    (h : k ∉ alKeys l) : alSet l k v = l := by
  induction l with
  | nil => rfl
  | cons p rest ih =>
    simp [alKeys] at h
    have h1 : p.1 ≠ k := fun he => h.1 he.symm
    simp only [alSet, h1, ite_false]
    rw [ih (by simpa [alKeys] using h.2)]

theorem alKeys_alSet {α : Type} (l : List (Nat × α)) (k : Nat) (v : α) :
    alKeys (alSet l k v) = alKeys l := by
  induction l with
  | nil => rfl
  | cons p rest ih =>
    by_cases hp : p.1 = k
    · simp only [alSet, hp, if_pos, alKeys, List.map_cons, hp] at ih ⊢
      exact congrArg _ ih
    · simp only [alSet, hp, ite_false, alKeys, List.map_cons] at ih ⊢
      exact congrArg _ ih

theorem mem_alSet {α : Type} {l : List (Nat × α)} {k : Nat} {v : α} {e : Nat × α}
    (h : e ∈ alSet l k v) : e = (k, v) ∨ e ∈ l := by
  induction l with
  | nil => simp [alSet] at h
  | cons p rest ih =>
    simp only [alSet, List.mem_cons] at h
    rcases h with h | h
    · by_cases hp : p.1 = k
      · simp [hp] at h
        exact Or.inl h
      · simp [hp] at h
        exact Or.inr (h ▸ List.mem_cons_self p rest)
    · rcases ih h with h' | h'
      · exact Or.inl h'
      · exact Or.inr (List.mem_cons_of_mem p h')

@[simp] theorem alGet_alRemove_self {α : Type} (l : List (Nat × α)) (k : Nat) :
    alGet (alRemove l k) k = none := by
  induction l with
  | nil => rfl
  | cons p rest ih =>
    by_cases hp : p.1 = k
    · simpa [alRemove, hp] using ih
    · simp [alRemove, hp, alGet]
      exact ih

theorem alGet_alRemove_ne {α : Type} (l : List (Nat × α)) (k : Nat) {x : Nat}
    (hx : x ≠ k) : alGet (alRemove l k) x = alGet l x := by
  induction l with
  | nil => rfl
  | cons p rest ih =>
    by_cases hp : p.1 = k
    · have hpx : p.1 ≠ x := fun he => hx (he.symm.trans hp)
      simp [alRemove, hp, alGet, hpx] at ih ⊢
      rw [if_neg (fun he : k = x => hx he.symm)]
      exact ih
    · simp only [alRemove, hp, ite_false, alGet_cons]
      rw [ih]

theorem alRemove_of_none {α : Type} {l : List (Nat × α)} {k : Nat}
    (h : alGet l k = none) : alRemove l k = l := by
  induction l with
  | nil => rfl
  | cons p rest ih =>
    by_cases hp : p.1 = k
    · simp [alGet, hp] at h
    · simp [alGet, hp] at h
      simp only [alRemove, hp, ite_false]
      rw [ih h]

theorem alRemove_alRemove {α : Type} (l : List (Nat × α)) (k : Nat) :
    alRemove (alRemove l k) k = alRemove l k :=
  alRemove_of_none (alGet_alRemove_self l k)

/-! ## Approval-Stake Ledger accessors (spec section 4.2)

Modelled from the spec: `lib.rs` of the stake-tracker pallet is absent from
the source tree.  `mutate_delta(target, signed_delta)` creates the entry at
`signed_delta` if absent, otherwise adds; a delta that would drive the
unsigned stored amount below zero is an upstream invariant violation and is
surfaced loudly (`none`, the panic-equivalent abort) rather than clamped,
per design note "Signed delta arithmetic on unsigned ledger storage". -/

/-- Apply a signed delta to an unsigned amount; `none` on underflow. -/
def applyDelta (v : Nat) (d : Int) : Option Nat :=
  if (v : Int) + d < 0 then none else some ((v : Int) + d).toNat

/-- `mutate_delta` of the ledger: create at `d` if absent, otherwise add `d`. -/
def mutate_delta (l : Ledger) (t : Nat) (d : Int) : Option Ledger :=
  match alGet l t with
  | some v => (applyDelta v d).map (fun nv => alSet l t nv)
  | none => (applyDelta 0 d).map (fun nv => (t, nv) :: l)

/-- Ledger value with default 0 (the amount an absent entry contributes). -/
def ledgerGetD (l : Ledger) (t : Nat) : Nat :=
  (alGet l t).getD 0

/-! ## Ranking collaborator interface (spec section 6) -/

/-- `contains(id)` of a ranking. -/
def rContains (r : Ranking) (k : Nat) : Bool :=
  alContains r k

/-- `get_score(id)` of a ranking. -/
def rGetScore (r : Ranking) (k : Nat) : Option Nat :=
  alGet r k

/-- `on_update(id, score)`: overwrite the score of a present id. -/
def rUpdate (r : Ranking) (k v : Nat) : Ranking :=
  alSet r k v

/-- Insert-or-update used where the tests show the hook writes the score of
an identity regardless of prior membership. -/
def rUpsert (r : Ranking) (k v : Nat) : Ranking :=
  if rContains r k then alSet r k v else (k, v) :: r

/-- `on_remove(id)`: idempotent removal. -/
def rRemove (r : Ranking) (k : Nat) : Ranking :=
  alRemove r k

/-! ## Staking source reads (spec section 6) -/

/-- `stake(id) -> Option<Stake>`. -/
def stakeOf (src : StakingSource) (who : Nat) : Option Stake :=
  (alGet src who).map StakerInfo.stake

/-- `status(id)`; an identity absent from the source is `Idle/Unbonded`. -/
def statusOf (src : StakingSource) (who : Nat) : StakerStatus :=
  ((alGet src who).map StakerInfo.status).getD StakerStatus.idle

/-- Current nomination list (empty for validators and idle identities). -/
def targetsOf (src : StakingSource) (who : Nat) : List Nat :=
  match statusOf src who with
  | StakerStatus.nominator ts => ts
  | _ => []

/-- `previous = previous_stake.map(active).unwrap_or(0)` (spec section 4.3). -/
def prevActive (prevStake : Option Stake) : Nat :=
  (prevStake.map Stake.active).getD 0

/-! ## The six lifecycle hooks (spec section 4.3)

Modelled from the spec, with the deviations pinned down by the in-tree tests
described in the header.  A hook that can abort fatally returns
`Option TrackerState`; `none` is the panic-equivalent abort. -/

/-- Refresh a target's ranking score to its ledger value when present
("if `t` is present in the Target Ranking, overwrite its score with
`Ledger[t]`"). -/
def refreshTarget (led : Ledger) (tl : Ranking) (t : Nat) : Ranking :=
  if rContains tl t then rUpdate tl t (ledgerGetD led t) else tl

/-- Apply `mutate_delta` with the same signed delta to every target in the
list, refreshing each affected target's ranking score as it goes; aborts on
underflow. -/
def updateTargets (led : Ledger) (tl : Ranking) (ts : List Nat) (d : Int) :
    Option (Ledger × Ranking) :=
  match ts with
  | [] => some (led, tl)
  | t :: rest =>
    match mutate_delta led t d with
    | none => none
    | some led' => updateTargets led' (refreshTarget led' tl t) rest d

/-- The targets whose ledger entries `on_stake_update` touches: the identity
itself for a validator, the currently nominated targets for a nominator,
none for an idle identity. -/
def stakeTargets (src : StakingSource) (who : Nat) : List Nat :=
  match statusOf src who with
  | StakerStatus.validator => [who]
  | StakerStatus.nominator ts => ts
  | StakerStatus.idle => []

/-- Modelled from the spec: `on_stake_update(who, previous_stake)`.  Aborts
fatally when `who` has no stake record.  For a validator, `Ledger[who] += delta`
with a target-ranking refresh; for a nominator the same per currently
nominated target; in both cases the voter-ranking score is overwritten with
`to_vote(current)` when `who` is present (`empty_lists` confirms no insertion
happens); for an idle identity the hook is a pure no-op. -/
def on_stake_update (src : StakingSource) (toVote : Nat → Nat) (s : TrackerState)
    (who : Nat) (prevStake : Option Stake) : Option TrackerState :=
  match stakeOf src who with
  | none => none
  | some st =>
    match statusOf src who with
    | StakerStatus.idle => some s
    | _ =>
      let delta : Int := (st.active : Int) - (prevActive prevStake : Int)
      match updateTargets s.ledger s.targetList (stakeTargets src who) delta with
      | none => none
      | some (led, tl) =>
        let vl := if rContains s.voterList who
          then rUpdate s.voterList who (toVote st.active) else s.voterList
        some ⟨led, vl, tl⟩

/-- Modelled from the spec: `on_nominator_update(who, previous_targets)`.
Aborts fatally when `who` has no stake record.  Every target of
`previous_targets` that `who` no longer nominates has its ledger entry
decremented by `active_stake(who)`, with a target-ranking refresh.  Per the
in-tree tests (see the file header): newly nominated targets are NOT
incremented here, and the voter-ranking score write is an upsert. -/
def on_nominator_update (src : StakingSource) (toVote : Nat → Nat) (s : TrackerState)
    (who : Nat) (prevTargets : List Nat) : Option TrackerState :=
  match stakeOf src who with
  | none => none
  | some st =>
    let dropped := prevTargets.filter (fun t => ! (targetsOf src who).contains t)
    match updateTargets s.ledger s.targetList dropped (-(st.active : Int)) with
    | none => none
    | some (led, tl) =>
      some ⟨led, rUpsert s.voterList who (toVote st.active), tl⟩

/-- Modelled from the spec: `on_validator_add(who)`.  No-op when already in
the voter ranking; otherwise aborts fatally when unbonded
(`on_validator_add::panics_when_not_bonded`), else inserts `who` with score
`to_vote(active_stake(who))`. -/
def on_validator_add (src : StakingSource) (toVote : Nat → Nat) (s : TrackerState)
    (who : Nat) : Option TrackerState :=
  if rContains s.voterList who then some s
  else
    match stakeOf src who with
    | none => none
    | some st => some ⟨s.ledger, (who, toVote st.active) :: s.voterList, s.targetList⟩

/-- Modelled from the spec: `on_validator_remove(who)` removes `who` from the
voter ranking if present, and is a no-op otherwise; it never requires a live
stake record, hence is total. -/
def on_validator_remove (s : TrackerState) (who : Nat) : TrackerState :=
  ⟨s.ledger, rRemove s.voterList who, s.targetList⟩

/-- Modelled from the spec: `on_nominator_remove(who, nominations)`, symmetric
to `on_validator_remove` (the nominations argument is unused by the observable
behaviour the spec describes). -/
def on_nominator_remove (s : TrackerState) (who : Nat) (_noms : List Nat) : TrackerState :=
  ⟨s.ledger, rRemove s.voterList who, s.targetList⟩

/-- Modelled from the spec: `on_unstake(who)` is an explicit no-op under any
prior state. -/
def on_unstake (s : TrackerState) (_who : Nat) : TrackerState :=
  s

/-! ## Effect lemmas for the ledger primitives -/

theorem mutate_delta_spec {l : Ledger} {t : Nat} {d : Int} {l' : Ledger}
    (h : mutate_delta l t d = some l') :
    0 ≤ (ledgerGetD l t : Int) + d
    ∧ alGet l' t = some (((ledgerGetD l t : Int) + d).toNat)
    ∧ (∀ x, x ≠ t → alGet l' x = alGet l x) := by
  unfold mutate_delta at h
  cases hv : alGet l t with
  | some v =>
    rw [hv] at h
    unfold applyDelta at h
    have hgd : ledgerGetD l t = v := by simp [ledgerGetD, hv]
    by_cases hneg : (v : Int) + d < 0
    · simp [hneg] at h
    · simp [hneg] at h
      refine ⟨?_, ?_, ?_⟩
      · rw [hgd]; exact le_of_not_lt hneg
      · rw [hgd, ← h]
        exact alGet_alSet_self (by simp [hv]) _
      · intro x hx
        rw [← h]
        exact alGet_alSet_ne l t _ hx
  | none =>
    rw [hv] at h
    unfold applyDelta at h
    have hgd : ledgerGetD l t = 0 := by simp [ledgerGetD, hv]
    by_cases hneg : ((0 : Nat) : Int) + d < 0
    · rw [if_pos hneg] at h
      simp at h
    · rw [if_neg hneg] at h
      rw [Option.map_some'] at h
      have hl' : l' = (t, (((0 : Nat) : Int) + d).toNat) :: l := (Option.some.injEq _ _ ▸ h).symm
      refine ⟨?_, ?_, ?_⟩
      · rw [hgd]; exact le_of_not_lt hneg
      · rw [hgd, hl']
        simp [alGet]
      · intro x hx
        rw [hl', alGet_cons]
        rw [if_neg (fun he : t = x => hx he.symm)]

theorem alContains_alSet {α : Type} (l : List (Nat × α)) (k : Nat) (v : α) (x : Nat) :
    alContains (alSet l k v) x = alContains l x := by
  by_cases hx : x = k
  · subst hx
    by_cases hc : (alGet l x).isSome = true
    · unfold alContains
      rw [alGet_alSet_self hc v, hc]
      rfl
    · have hn : alGet l x = none := by
        cases hg : alGet l x
        · rfl
        · exact absurd (by simp [hg]) hc
      rw [alSet_of_not_mem v (alGet_none_iff.mp hn)]
  · unfold alContains
    rw [alGet_alSet_ne l k v hx]

theorem rContains_refreshTarget (led : Ledger) (tl : Ranking) (t : Nat) (x : Nat) :
    rContains (refreshTarget led tl t) x = rContains tl x := by
  unfold refreshTarget
  by_cases hc : rContains tl t
  · simp only [hc, if_true, rUpdate]
    exact alContains_alSet tl t _ x
  · simp [hc]

theorem rGetScore_refreshTarget_ne (led : Ledger) (tl : Ranking) (t : Nat) {x : Nat}
    (hx : x ≠ t) : rGetScore (refreshTarget led tl t) x = rGetScore tl x := by
  unfold refreshTarget
  by_cases hc : rContains tl t
  · simp only [hc, if_true, rUpdate, rGetScore]
    exact alGet_alSet_ne tl t _ hx
  · simp [hc]

theorem updateTargets_spec (d : Int) (ts : List Nat) :
    ∀ (led : Ledger) (tl : Ranking) (led' : Ledger) (tl' : Ranking),
    ts.Nodup →
    updateTargets led tl ts d = some (led', tl') →
    (∀ x, x ∉ ts → alGet led' x = alGet led x ∧ rGetScore tl' x = rGetScore tl x)
    ∧ (∀ t, t ∈ ts →
        (ledgerGetD led' t : Int) = (ledgerGetD led t : Int) + d
        ∧ (alGet led' t).isSome = true
        ∧ (rContains tl t = true → rGetScore tl' t = some (ledgerGetD led' t)))
    ∧ (∀ x, rContains tl' x = rContains tl x) := by
  induction ts with
  | nil =>
    intro led tl led' tl' _ h
    simp [updateTargets] at h
    obtain ⟨h1, h2⟩ := h
    subst h1
    subst h2
    exact ⟨fun x _ => ⟨rfl, rfl⟩, fun t ht => absurd ht (List.not_mem_nil t), fun _ => rfl⟩
  | cons t rest ih =>
    intro led tl led' tl' hnd h
    unfold updateTargets at h
    cases hm : mutate_delta led t d with
    | none => rw [hm] at h; simp at h
    | some led₁ =>
      rw [hm] at h
      have htrest : t ∉ rest := (List.nodup_cons.mp hnd).1
      have hndrest : rest.Nodup := (List.nodup_cons.mp hnd).2
      obtain ⟨Ha, Hb, Hc⟩ := ih led₁ (refreshTarget led₁ tl t) led' tl' hndrest h
      obtain ⟨hpos, hself, hne⟩ := mutate_delta_spec hm
      have hled't : alGet led' t = alGet led₁ t := (Ha t htrest).1
      refine ⟨?_, ?_, ?_⟩
      · intro x hx
        have hxt : x ≠ t := fun he => hx (he ▸ List.mem_cons_self t rest)
        have hxrest : x ∉ rest := fun hr => hx (List.mem_cons_of_mem t hr)
        refine ⟨?_, ?_⟩
        · rw [(Ha x hxrest).1]
          exact hne x hxt
        · rw [(Ha x hxrest).2]
          exact rGetScore_refreshTarget_ne led₁ tl t hxt
      · intro t' ht'
        rcases List.mem_cons.mp ht' with he | hr
        · subst he
          have hgd1 : alGet led' t' = some (((ledgerGetD led t' : Int) + d).toNat) := by
            rw [hled't]; exact hself
          have hgd : (ledgerGetD led' t' : Int) = (ledgerGetD led t' : Int) + d := by
            rw [ledgerGetD, hgd1]
            simp [Int.toNat_of_nonneg hpos]
          refine ⟨hgd, by simp [hgd1], ?_⟩
          · intro hct
            have hsc : rGetScore tl' t' = rGetScore (refreshTarget led₁ tl t') t' :=
              (Ha t' htrest).2
            rw [hsc]
            unfold refreshTarget
            rw [hct]
            simp only [if_true, rGetScore, rUpdate]
            rw [alGet_alSet_self (by simpa [alContains] using hct) _]
            have : ledgerGetD led₁ t' = ledgerGetD led' t' := by
              rw [ledgerGetD, ledgerGetD, hled't]
            rw [this]
        · have ht'ne : t' ≠ t := fun he => htrest (he ▸ hr)
          obtain ⟨hb1, hb2, hb3⟩ := Hb t' hr
          refine ⟨?_, hb2, ?_⟩
          · rw [hb1, ledgerGetD, hne t' ht'ne, ← ledgerGetD]
          · intro hct
            exact hb3 (by rw [rContains_refreshTarget]; exact hct)
      · intro x
        rw [Hc x, rContains_refreshTarget]

/-! ## Hook-level effect lemmas -/

@[simp] theorem stakeTargets_validator {src : StakingSource} {who : Nat}
    (h : statusOf src who = StakerStatus.validator) : stakeTargets src who = [who] := by
  simp [stakeTargets, h]

@[simp] theorem stakeTargets_nominator {src : StakingSource} {who : Nat} {ts : List Nat}
    (h : statusOf src who = StakerStatus.nominator ts) : stakeTargets src who = ts := by
  simp [stakeTargets, h]

@[simp] theorem stakeTargets_idle {src : StakingSource} {who : Nat}
    (h : statusOf src who = StakerStatus.idle) : stakeTargets src who = [] := by
  simp [stakeTargets, h]

theorem on_stake_update_missing (src : StakingSource) (toVote : Nat → Nat)
    (s : TrackerState) (who : Nat) (prevStake : Option Stake)
    (h : stakeOf src who = none) :
    on_stake_update src toVote s who prevStake = none := by
  simp [on_stake_update, h]

theorem on_stake_update_idle (src : StakingSource) (toVote : Nat → Nat)
    (s : TrackerState) (who : Nat) (prevStake : Option Stake) (st : Stake)
    (hst : stakeOf src who = some st) (hid : statusOf src who = StakerStatus.idle) :
    on_stake_update src toVote s who prevStake = some s := by
  simp [on_stake_update, hst, hid]

theorem on_stake_update_spec (src : StakingSource) (toVote : Nat → Nat)
    (s : TrackerState) (who : Nat) (prevStake : Option Stake) (st : Stake)
    (s' : TrackerState)
    (hst : stakeOf src who = some st)
    (hnid : statusOf src who ≠ StakerStatus.idle)
    (hnd : (stakeTargets src who).Nodup)
    (h : on_stake_update src toVote s who prevStake = some s') :
    (∀ x, x ∉ stakeTargets src who →
        alGet s'.ledger x = alGet s.ledger x
        ∧ rGetScore s'.targetList x = rGetScore s.targetList x)
    ∧ (∀ t, t ∈ stakeTargets src who →
        (ledgerGetD s'.ledger t : Int)
          = (ledgerGetD s.ledger t : Int) + ((st.active : Int) - (prevActive prevStake : Int))
        ∧ (alGet s'.ledger t).isSome = true
        ∧ (rContains s.targetList t = true →
            rGetScore s'.targetList t = some (ledgerGetD s'.ledger t)))
    ∧ (∀ x, rContains s'.targetList x = rContains s.targetList x)
    ∧ s'.voterList = (if rContains s.voterList who
        then rUpdate s.voterList who (toVote st.active) else s.voterList) := by
  cases hstat : statusOf src who with
  | idle => exact absurd hstat hnid
  | validator =>
    simp only [on_stake_update, hst, hstat] at h
    cases hu : updateTargets s.ledger s.targetList (stakeTargets src who)
        ((st.active : Int) - (prevActive prevStake : Int)) with
    | none => rw [hu] at h; simp at h
    | some p =>
      obtain ⟨led, tl⟩ := p
      rw [hu] at h
      simp only [Option.some.injEq] at h
      obtain ⟨Ha, Hb, Hc⟩ := updateTargets_spec _ _ _ _ _ _ hnd hu
      rw [← h]
      exact ⟨Ha, Hb, Hc, rfl⟩
  | nominator ts =>
    simp only [on_stake_update, hst, hstat] at h
    cases hu : updateTargets s.ledger s.targetList (stakeTargets src who)
        ((st.active : Int) - (prevActive prevStake : Int)) with
    | none => rw [hu] at h; simp at h
    | some p =>
      obtain ⟨led, tl⟩ := p
      rw [hu] at h
      simp only [Option.some.injEq] at h
      obtain ⟨Ha, Hb, Hc⟩ := updateTargets_spec _ _ _ _ _ _ hnd hu
      rw [← h]
      exact ⟨Ha, Hb, Hc, rfl⟩

theorem mem_dropped_iff {prev cur : List Nat} {x : Nat} :
    x ∈ prev.filter (fun t => ! cur.contains t) ↔ x ∈ prev ∧ x ∉ cur := by
  simp [List.mem_filter]

theorem on_nominator_update_missing (src : StakingSource) (toVote : Nat → Nat)
    (s : TrackerState) (who : Nat) (prevTargets : List Nat)
    (h : stakeOf src who = none) :
    on_nominator_update src toVote s who prevTargets = none := by
  simp [on_nominator_update, h]

theorem on_nominator_update_spec (src : StakingSource) (toVote : Nat → Nat)
    (s : TrackerState) (who : Nat) (prevTargets : List Nat) (st : Stake)
    (s' : TrackerState)
    (hst : stakeOf src who = some st)
    (hnd : prevTargets.Nodup)
    (h : on_nominator_update src toVote s who prevTargets = some s') :
    (∀ x, ¬(x ∈ prevTargets ∧ x ∉ targetsOf src who) →
        alGet s'.ledger x = alGet s.ledger x
        ∧ rGetScore s'.targetList x = rGetScore s.targetList x)
    ∧ (∀ t, t ∈ prevTargets → t ∉ targetsOf src who →
        (ledgerGetD s'.ledger t : Int) = (ledgerGetD s.ledger t : Int) - (st.active : Int)
        ∧ (rContains s.targetList t = true →
            rGetScore s'.targetList t = some (ledgerGetD s'.ledger t)))
    ∧ (∀ x, rContains s'.targetList x = rContains s.targetList x)
    ∧ s'.voterList = rUpsert s.voterList who (toVote st.active) := by
  simp only [on_nominator_update, hst] at h
  cases hu : updateTargets s.ledger s.targetList
      (prevTargets.filter (fun t => ! (targetsOf src who).contains t))
      (-(st.active : Int)) with
  | none => rw [hu] at h; simp at h
  | some p =>
    obtain ⟨led, tl⟩ := p
    rw [hu] at h
    simp only [Option.some.injEq] at h
    obtain ⟨Ha, Hb, Hc⟩ := updateTargets_spec _ _ _ _ _ _ (hnd.filter _) hu
    rw [← h]
    refine ⟨?_, ?_, Hc, rfl⟩
    · intro x hx
      exact Ha x (fun hmem => hx (mem_dropped_iff.mp hmem))
    · intro t htp htc
      obtain ⟨hb1, _, hb3⟩ := Hb t (mem_dropped_iff.mpr ⟨htp, htc⟩)
      refine ⟨?_, hb3⟩
      rw [hb1]
      ring

/-! ## Claim theorems: the individual hooks -/

/-- C2: for an identity `who` whose current status is Validator,
`on_stake_update(who, previous_stake)` changes `Ledger[who]` by exactly
`delta = active_stake(who) - previous_stake.map(active).unwrap_or(0)`, and if
`who` is present in the Target Ranking its score is overwritten with the new
`Ledger[who]`. -/
theorem on_stake_update_validator_delta
    (src : StakingSource) (toVote : Nat → Nat) (s : TrackerState) (who : Nat)
    (prevStake : Option Stake) (st : Stake) (s' : TrackerState)
    (hst : stakeOf src who = some st)
    (hval : statusOf src who = StakerStatus.validator)
    (h : on_stake_update src toVote s who prevStake = some s') :
    (ledgerGetD s'.ledger who : Int)
      = (ledgerGetD s.ledger who : Int) + ((st.active : Int) - (prevActive prevStake : Int))
    ∧ (rContains s.targetList who = true →
        rGetScore s'.targetList who = some (ledgerGetD s'.ledger who)) := by
  have hnid : statusOf src who ≠ StakerStatus.idle := by
    rw [hval]
    exact fun hcon => StakerStatus.noConfusion hcon
  have hnd : (stakeTargets src who).Nodup := by
    rw [stakeTargets_validator hval]
    exact List.nodup_singleton who
  obtain ⟨_, Hb, _, _⟩ := on_stake_update_spec src toVote s who prevStake st s' hst hnid hnd h
  have hw := Hb who (by rw [stakeTargets_validator hval]; exact List.mem_singleton_self who)
  exact ⟨hw.1, hw.2.2⟩

/-- C2 witness: scenario C of the spec — a validator with previous active 10
and current active 9 has its ledger entry decremented by 1 (100 to 99), and
the present target-ranking entry is refreshed to 99. -/
theorem on_stake_update_validator_delta_witness :
    (ledgerGetD [(10, 99)] 10 : Int)
      = (ledgerGetD [(10, 100)] 10 : Int)
        + (((9 : Nat) : Int) - (prevActive (some ⟨10, 11⟩) : Int))
    ∧ (rContains [(10, (100 : Nat))] 10 = true →
        rGetScore [(10, 99)] 10 = some (ledgerGetD [(10, 99)] 10)) :=
  on_stake_update_validator_delta
    [(10, ⟨⟨9, 10⟩, StakerStatus.validator⟩)] id
    ⟨[(10, 100)], [], [(10, 100)]⟩ 10 (some ⟨10, 11⟩) ⟨9, 10⟩
    ⟨[(10, 99)], [], [(10, 99)]⟩ rfl rfl rfl

/-- C3: for an identity `who` whose current status is Nominator with
(duplicate-free) targets `ts`, `on_stake_update(who, previous_stake)` adds
`delta` to the ledger entry of every currently nominated target (creating
absent entries), overwrites each such target's present Target Ranking score
with its new ledger value, and overwrites `who`'s present Voter Ranking score
with `to_vote(active_stake(who))`. -/
theorem on_stake_update_nominator_delta
    (src : StakingSource) (toVote : Nat → Nat) (s : TrackerState) (who : Nat)
    (prevStake : Option Stake) (st : Stake) (ts : List Nat) (s' : TrackerState)
    (hst : stakeOf src who = some st)
    (hnom : statusOf src who = StakerStatus.nominator ts)
    (hnd : ts.Nodup)
    (h : on_stake_update src toVote s who prevStake = some s') :
    (∀ t, t ∈ ts →
        (ledgerGetD s'.ledger t : Int)
          = (ledgerGetD s.ledger t : Int) + ((st.active : Int) - (prevActive prevStake : Int))
        ∧ (alGet s'.ledger t).isSome = true
        ∧ (rContains s.targetList t = true →
            rGetScore s'.targetList t = some (ledgerGetD s'.ledger t)))
    ∧ (rContains s.voterList who = true →
        rGetScore s'.voterList who = some (toVote st.active)) := by
  have hnid : statusOf src who ≠ StakerStatus.idle := by
    rw [hnom]
    exact fun hcon => StakerStatus.noConfusion hcon
  have hnd' : (stakeTargets src who).Nodup := by
    rw [stakeTargets_nominator hnom]
    exact hnd
  obtain ⟨_, Hb, _, Hv⟩ := on_stake_update_spec src toVote s who prevStake st s' hst hnid hnd' h
  refine ⟨?_, ?_⟩
  · intro t ht
    exact Hb t (by rw [stakeTargets_nominator hnom]; exact ht)
  · intro hc
    rw [Hv, hc, if_pos rfl]
    exact alGet_alSet_self (by simpa [rContains, alContains] using hc) _

/-- C3 witness: nominator 20 (active 50, previous stake None) nominating
`[10, 11]`: target 11 had no ledger entry and gets one created at 50, its
present target-ranking score is refreshed to 50, and 20's present
voter-ranking score becomes `to_vote(50)`. -/
theorem on_stake_update_nominator_delta_witness :
    ((ledgerGetD [(11, 50), (10, 149)] 11 : Int)
        = (ledgerGetD [(10, 99)] 11 : Int) + (((50 : Nat) : Int) - (prevActive none : Int))
    ∧ (alGet [(11, 50), (10, 149)] 11).isSome = true
    ∧ (rContains [(10, 99), (11, 3)] 11 = true →
        rGetScore [(10, 149), (11, 50)] 11 = some (ledgerGetD [(11, 50), (10, 149)] 11)))
    ∧ (rContains [(20, (7 : Nat))] 20 = true →
        rGetScore [(20, 50)] 20 = some 50) := by
  have H := on_stake_update_nominator_delta
    [(10, ⟨⟨9, 10⟩, StakerStatus.validator⟩),
     (11, ⟨⟨100, 100⟩, StakerStatus.validator⟩),
     (20, ⟨⟨50, 60⟩, StakerStatus.nominator [10, 11]⟩)] id
    ⟨[(10, 99)], [(20, 7)], [(10, 99), (11, 3)]⟩ 20 none ⟨50, 60⟩ [10, 11]
    ⟨[(11, 50), (10, 149)], [(20, 50)], [(10, 149), (11, 50)]⟩
    rfl rfl (by decide) rfl
  exact ⟨H.1 11 (by decide), H.2⟩

/-- C4 counterexample: `on_nominator_update` on a bonded identity that is
absent from the Voter Ranking DOES insert it (with score
`to_vote(active_stake(who))`), contradicting the claim that no insertion
occurs; this matches the in-tree test `on_nominator_update::works_for_everyone`,
where ids outside the list have a voter-list score after the call. -/
theorem on_nominator_update_inserts_absent_voter :
    rContains (⟨[], [], []⟩ : TrackerState).voterList 20 = false
    ∧ on_nominator_update [(20, ⟨⟨50, 60⟩, StakerStatus.nominator [10]⟩)] id
        ⟨[], [], []⟩ 20 [] = some ⟨[], [(20, 50)], []⟩
    ∧ rContains (⟨[], [(20, 50)], []⟩ : TrackerState).voterList 20 = true := by
  exact ⟨rfl, rfl, rfl⟩

/-- C4 (amended): for every bonded identity `who`,
`on_nominator_update(who, previous_targets)` writes `who`'s Voter Ranking
score to `to_vote(active_stake(who))` as an upsert: present entries are
overwritten and absent entries are inserted. -/
theorem on_nominator_update_voter_upsert
    (src : StakingSource) (toVote : Nat → Nat) (s : TrackerState) (who : Nat)
    (prevTargets : List Nat) (st : Stake) (s' : TrackerState)
    (hst : stakeOf src who = some st)
    (h : on_nominator_update src toVote s who prevTargets = some s') :
    s'.voterList = rUpsert s.voterList who (toVote st.active)
    ∧ rGetScore s'.voterList who = some (toVote st.active) := by
  simp only [on_nominator_update, hst] at h
  cases hu : updateTargets s.ledger s.targetList
      (prevTargets.filter (fun t => ! (targetsOf src who).contains t))
      (-(st.active : Int)) with
  | none => rw [hu] at h; simp at h
  | some p =>
    obtain ⟨led, tl⟩ := p
    rw [hu] at h
    simp only [Option.some.injEq] at h
    rw [← h]
    refine ⟨rfl, ?_⟩
    show rGetScore (rUpsert s.voterList who (toVote st.active)) who = some (toVote st.active)
    unfold rUpsert
    by_cases hc : rContains s.voterList who
    · rw [if_pos hc]
      exact alGet_alSet_self (by simpa [rContains, alContains] using hc) _
    · rw [if_neg hc]
      simp [rGetScore, alGet]

/-- C4 witness: the amended behaviour at a concrete input — nominator 20
(active 50) absent from the voter ranking is inserted with score
`to_vote(50)`. -/
theorem on_nominator_update_voter_upsert_witness :
    (⟨[], [(20, 50)], []⟩ : TrackerState).voterList = rUpsert [] 20 (id 50)
    ∧ rGetScore (⟨[], [(20, 50)], []⟩ : TrackerState).voterList 20 = some (id 50) :=
  on_nominator_update_voter_upsert
    [(20, ⟨⟨50, 60⟩, StakerStatus.nominator [10]⟩)] id ⟨[], [], []⟩ 20 [] ⟨50, 60⟩
    ⟨[], [(20, 50)], []⟩ rfl rfl

/-- C5 counterexample: nominator 20 (active 50) currently nominates target 10,
which is not in `previous_targets = []`; the claim requires `Ledger[10]` to be
incremented by 50, but the call succeeds with no ledger entry for 10 at all —
matching the in-tree storage-no-op test `on_nominator_update::noop_when_in_the_list`. -/
theorem on_nominator_update_no_increment :
    stakeOf [(20, ⟨⟨50, 60⟩, StakerStatus.nominator [10]⟩)] 20 = some ⟨50, 60⟩
    ∧ targetsOf [(20, ⟨⟨50, 60⟩, StakerStatus.nominator [10]⟩)] 20 = [10]
    ∧ on_nominator_update [(20, ⟨⟨50, 60⟩, StakerStatus.nominator [10]⟩)] id
        ⟨[], [], []⟩ 20 [] = some ⟨[], [(20, 50)], []⟩
    ∧ alGet (⟨[], [(20, 50)], []⟩ : TrackerState).ledger 10 = none
    ∧ (50 : Nat) ≠ 0 := by
  refine ⟨rfl, rfl, rfl, rfl, by decide⟩

/-- C5 (amended): `on_nominator_update(who, previous_targets)` (with
duplicate-free `previous_targets`) decrements the ledger entry of every
previous target that `who` no longer nominates by `active_stake(who)`,
refreshing its present Target Ranking score; the ledger entries of currently
nominated targets not in `previous_targets` are left UNCHANGED (their stake
is accounted by `on_stake_update` instead). -/
theorem on_nominator_update_dropped_only
    (src : StakingSource) (toVote : Nat → Nat) (s : TrackerState) (who : Nat)
    (prevTargets : List Nat) (st : Stake) (s' : TrackerState)
    (hst : stakeOf src who = some st)
    (hnd : prevTargets.Nodup)
    (h : on_nominator_update src toVote s who prevTargets = some s') :
    (∀ t, t ∈ prevTargets → t ∉ targetsOf src who →
        (ledgerGetD s'.ledger t : Int) = (ledgerGetD s.ledger t : Int) - (st.active : Int)
        ∧ (rContains s.targetList t = true →
            rGetScore s'.targetList t = some (ledgerGetD s'.ledger t)))
    ∧ (∀ t, t ∈ targetsOf src who → t ∉ prevTargets →
        alGet s'.ledger t = alGet s.ledger t) := by
  obtain ⟨Ha, Hb, _, _⟩ :=
    on_nominator_update_spec src toVote s who prevTargets st s' hst hnd h
  exact ⟨Hb, fun t _ htp => (Ha t (fun hx => htp hx.1)).1⟩

/-- C5 witness: nominator 20 (active 50) moves from previous targets `[10]`
to current target `[11]`: the dropped target 10 is decremented 60 to 10 with
its target-ranking score refreshed, while newly nominated target 11's ledger
entry is untouched. -/
theorem on_nominator_update_dropped_only_witness :
    ((ledgerGetD [(10, 10)] 10 : Int) = (ledgerGetD [(10, 60)] 10 : Int) - ((50 : Nat) : Int)
    ∧ (rContains [(10, (60 : Nat))] 10 = true →
        rGetScore [(10, 10)] 10 = some (ledgerGetD [(10, 10)] 10)))
    ∧ alGet [(10, (10 : Nat))] 11 = alGet [(10, (60 : Nat))] 11 := by
  have H := on_nominator_update_dropped_only
    [(20, ⟨⟨50, 60⟩, StakerStatus.nominator [11]⟩)] id
    ⟨[(10, 60)], [], [(10, 60)]⟩ 20 [10] ⟨50, 60⟩
    ⟨[(10, 10)], [(20, 50)], [(10, 10)]⟩ rfl (by decide) rfl
  exact ⟨H.1 10 (by decide) (by decide), H.2 11 (by decide) (by decide)⟩

/-- C6: calling `on_stake_update` or `on_nominator_update` on an identity
with no stake record aborts fatally (modelled as `none`), regardless of the
other arguments; it never returns normally and never silently no-ops. -/
theorem stake_hooks_abort_when_unbonded
    (src : StakingSource) (toVote : Nat → Nat) (s : TrackerState) (who : Nat)
    (prevStake : Option Stake) (prevTargets : List Nat)
    (h : stakeOf src who = none) :
    on_stake_update src toVote s who prevStake = none
    ∧ on_nominator_update src toVote s who prevTargets = none :=
  ⟨on_stake_update_missing src toVote s who prevStake h,
   on_nominator_update_missing src toVote s who prevTargets h⟩

/-- C6 witness: identity 30 has no stake record, both hooks abort. -/
theorem stake_hooks_abort_when_unbonded_witness :
    on_stake_update [(10, ⟨⟨100, 100⟩, StakerStatus.validator⟩)] id ⟨[], [], []⟩ 30 none = none
    ∧ on_nominator_update [(10, ⟨⟨100, 100⟩, StakerStatus.validator⟩)] id
        ⟨[], [], []⟩ 30 [] = none :=
  stake_hooks_abort_when_unbonded
    [(10, ⟨⟨100, 100⟩, StakerStatus.validator⟩)] id ⟨[], [], []⟩ 30 none [] rfl

/-- C7: `on_stake_update` on a bonded identity that is neither a validator
nor a nominator returns the state unchanged — a pure storage no-op, even when
the identity is present in the Voter Ranking. -/
theorem on_stake_update_idle_noop
    (src : StakingSource) (toVote : Nat → Nat) (s : TrackerState) (who : Nat)
    (prevStake : Option Stake) (st : Stake)
    (hst : stakeOf src who = some st)
    (hid : statusOf src who = StakerStatus.idle) :
    on_stake_update src toVote s who prevStake = some s :=
  on_stake_update_idle src toVote s who prevStake st hst hid

/-- C7 witness: bonded idle identity 1, present in the voter ranking with
score 10000, is untouched (test `noop_when_not_validator_or_nominator`). -/
theorem on_stake_update_idle_noop_witness :
    on_stake_update [(1, ⟨⟨25, 25⟩, StakerStatus.idle⟩)] id
      ⟨[(10, 1)], [(1, 10000)], []⟩ 1 none = some ⟨[(10, 1)], [(1, 10000)], []⟩ :=
  on_stake_update_idle_noop [(1, ⟨⟨25, 25⟩, StakerStatus.idle⟩)] id
    ⟨[(10, 1)], [(1, 10000)], []⟩ 1 none ⟨25, 25⟩ rfl rfl

/-- C8: `on_validator_remove(who)` and `on_nominator_remove(who, noms)` are
total (they never abort, bonded or not), remove `who` from the Voter Ranking,
are storage no-ops when `who` is absent, are idempotent, and touch neither
the ledger nor the Target Ranking. -/
theorem removal_hooks_spec (s : TrackerState) (who : Nat) (noms : List Nat) :
    (rContains s.voterList who = false →
        on_validator_remove s who = s ∧ on_nominator_remove s who noms = s)
    ∧ on_validator_remove (on_validator_remove s who) who = on_validator_remove s who
    ∧ on_nominator_remove (on_nominator_remove s who noms) who noms
        = on_nominator_remove s who noms
    ∧ rContains (on_validator_remove s who).voterList who = false
    ∧ rContains (on_nominator_remove s who noms).voterList who = false
    ∧ (on_validator_remove s who).ledger = s.ledger
    ∧ (on_validator_remove s who).targetList = s.targetList
    ∧ (on_nominator_remove s who noms).ledger = s.ledger
    ∧ (on_nominator_remove s who noms).targetList = s.targetList := by
  obtain ⟨led, vl, tl⟩ := s
  refine ⟨?_, ?_, ?_, ?_, ?_, rfl, rfl, rfl, rfl⟩
  · intro hc
    have hnone : alGet vl who = none := by
      unfold rContains alContains at hc
      cases hg : alGet vl who
      · rfl
      · rw [hg] at hc
        simp at hc
    have hrm : alRemove vl who = vl := alRemove_of_none hnone
    constructor <;> simp [on_validator_remove, on_nominator_remove, rRemove, hrm]
  · simp [on_validator_remove, rRemove, alRemove_alRemove]
  · simp [on_nominator_remove, rRemove, alRemove_alRemove]
  · simp [on_validator_remove, rContains, alContains, rRemove]
  · simp [on_nominator_remove, rContains, alContains, rRemove]

/-- C8 witness: removal of absent id 30 is a storage no-op for both hooks;
removal of present id 20 is idempotent and leaves 20 outside the list. -/
theorem removal_hooks_spec_witness :
    on_validator_remove ⟨[(10, 5)], [(20, 100)], []⟩ 30 = ⟨[(10, 5)], [(20, 100)], []⟩
    ∧ on_nominator_remove ⟨[(10, 5)], [(20, 100)], []⟩ 30 [10] = ⟨[(10, 5)], [(20, 100)], []⟩
    ∧ on_validator_remove (on_validator_remove ⟨[(10, 5)], [(20, 100)], []⟩ 20) 20
        = on_validator_remove ⟨[(10, 5)], [(20, 100)], []⟩ 20
    ∧ rContains (on_validator_remove ⟨[(10, 5)], [(20, 100)], []⟩ 20).voterList 20 = false := by
  refine ⟨((removal_hooks_spec ⟨[(10, 5)], [(20, 100)], []⟩ 30 [10]).1 rfl).1,
    ((removal_hooks_spec ⟨[(10, 5)], [(20, 100)], []⟩ 30 [10]).1 rfl).2,
    (removal_hooks_spec ⟨[(10, 5)], [(20, 100)], []⟩ 20 [10]).2.1,
    (removal_hooks_spec ⟨[(10, 5)], [(20, 100)], []⟩ 20 [10]).2.2.2.1⟩

/-- C9: `on_unstake` is an explicit no-op: for every identity and every prior
state the tracker storage is returned byte-identical. -/
theorem on_unstake_noop (s : TrackerState) (who : Nat) : on_unstake s who = s :=
  rfl

/-- C10: `on_validator_add(who)` aborts fatally when `who` is absent from the
Voter Ranking and has no stake record; when absent and bonded it inserts `who`
with score `to_vote(active_stake(who))` touching nothing else; when already
present it is a storage no-op. -/
theorem on_validator_add_spec
    (src : StakingSource) (toVote : Nat → Nat) (s : TrackerState) (who : Nat) (st : Stake) :
    (rContains s.voterList who = false → stakeOf src who = none →
        on_validator_add src toVote s who = none)
    ∧ (rContains s.voterList who = false → stakeOf src who = some st →
        on_validator_add src toVote s who
          = some ⟨s.ledger, (who, toVote st.active) :: s.voterList, s.targetList⟩)
    ∧ (rContains s.voterList who = true → on_validator_add src toVote s who = some s) := by
  refine ⟨?_, ?_, ?_⟩
  · intro hc hst
    simp [on_validator_add, hc, hst]
  · intro hc hst
    simp [on_validator_add, hc, hst]
  · intro hc
    simp [on_validator_add, hc]

/-- C10 witness: unbonded absent id 30 aborts; bonded absent validator 10 is
inserted at `to_vote(100)`; present id 1 is a no-op even when unbonded. -/
theorem on_validator_add_spec_witness :
    on_validator_add [] id (⟨[], [], []⟩ : TrackerState) 30 = none
    ∧ on_validator_add [(10, ⟨⟨100, 100⟩, StakerStatus.validator⟩)] id
        (⟨[], [], []⟩ : TrackerState) 10 = some ⟨[], [(10, 100)], []⟩
    ∧ on_validator_add [] id (⟨[], [(1, 1000)], []⟩ : TrackerState) 1
        = some ⟨[], [(1, 1000)], []⟩ := by
  refine ⟨(on_validator_add_spec [] id ⟨[], [], []⟩ 30 ⟨0, 0⟩).1 rfl rfl,
    (on_validator_add_spec [(10, ⟨⟨100, 100⟩, StakerStatus.validator⟩)] id
      ⟨[], [], []⟩ 10 ⟨100, 100⟩).2.1 rfl rfl,
    (on_validator_add_spec [] id ⟨[], [(1, 1000)], []⟩ 1 ⟨0, 0⟩).2.2 rfl⟩

/-! ## The true approval-stake aggregate and reachability (claim C1)

The aggregate a target's ledger entry is supposed to equal: the target's own
active stake if it is currently a validator, plus the active stake of every
nominator currently nominating it (spec section 3). -/

/-- Whether a status nominates a given target. -/
def nominates (st : StakerStatus) (t : Nat) : Bool :=
  match st with
  | StakerStatus.nominator ts => ts.contains t
  | _ => false

/-- The contribution of one staking-source entry to the aggregate of target
`t`: its own active stake when the entry is `t` itself as a validator, plus
its active stake when it nominates `t`. -/
def contribE (e : Nat × StakerInfo) (t : Nat) : Int :=
  (if e.1 = t ∧ e.2.status = StakerStatus.validator then (e.2.stake.active : Int) else 0)
  + (if nominates e.2.status t then (e.2.stake.active : Int) else 0)

/-- The true aggregate approval stake of target `t` in a staking source. -/
def approvalOf (src : StakingSource) (t : Nat) : Int :=
  src.foldr (fun e acc => contribE e t + acc) 0

@[simp] theorem approvalOf_nil (t : Nat) : approvalOf [] t = 0 := rfl

@[simp] theorem approvalOf_cons (e : Nat × StakerInfo) (src : StakingSource) (t : Nat) :
    approvalOf (e :: src) t = contribE e t + approvalOf src t := rfl

theorem contribE_idle (who : Nat) (st : Stake) (t : Nat) :
    contribE (who, ⟨st, StakerStatus.idle⟩) t = 0 := by
  simp [contribE, nominates]

theorem contribE_validator (who : Nat) (st : Stake) (t : Nat) :
    contribE (who, ⟨st, StakerStatus.validator⟩) t
      = if who = t then (st.active : Int) else 0 := by
  by_cases h : who = t <;> simp [contribE, nominates, h]

theorem contribE_nominator (who : Nat) (st : Stake) (ts : List Nat) (t : Nat) :
    contribE (who, ⟨st, StakerStatus.nominator ts⟩) t
      = if t ∈ ts then (st.active : Int) else 0 := by
  by_cases h : t ∈ ts <;>
    simp [contribE, nominates, List.elem_eq_mem, decide_eq_true_eq, h]

theorem approvalOf_alSet {src : StakingSource} {who : Nat} {i : StakerInfo} (i' : StakerInfo)
    (hnd : (alKeys src).Nodup) (hget : alGet src who = some i) (t : Nat) :
    approvalOf (alSet src who i') t
      = approvalOf src t + (contribE (who, i') t - contribE (who, i) t) := by
  induction src with
  | nil => simp at hget
  | cons e rest ih =>
    have hndrest : (alKeys rest).Nodup := by
      rw [alKeys, List.map_cons] at hnd
      exact (List.nodup_cons.mp hnd).2
    by_cases hp : e.1 = who
    · have hi : i = e.2 := by
        rw [alGet_cons, if_pos hp, Option.some.injEq] at hget
        exact hget.symm
      have he : e = (who, i) := by
        cases e
        simp only [Prod.mk.injEq]
        exact ⟨hp, hi.symm⟩
      have hwho_rest : who ∉ alKeys rest := by
        rw [alKeys, List.map_cons] at hnd
        rw [← hp]
        exact (List.nodup_cons.mp hnd).1
      have hsetrest : alSet rest who i' = rest := alSet_of_not_mem i' hwho_rest
      show ((if e.1 = who then (who, i') else e) :: alSet rest who i').foldr _ _ = _
      rw [if_pos hp, hsetrest]
      rw [show ((who, i') :: rest).foldr (fun e acc => contribE e t + acc) 0
          = contribE (who, i') t + approvalOf rest t from rfl]
      rw [approvalOf_cons, he]
      ring
    · have hget' : alGet rest who = some i := by
        rw [alGet_cons, if_neg hp] at hget
        exact hget
      show ((if e.1 = who then (who, i') else e) :: alSet rest who i').foldr _ _ = _
      rw [if_neg hp]
      rw [show ((e :: alSet rest who i').foldr (fun e acc => contribE e t + acc) 0)
          = contribE e t + approvalOf (alSet rest who i') t from rfl]
      rw [approvalOf_cons, ih hndrest hget']
      ring

/-- Well-formedness the staking source guarantees: identities occur at most
once, and nomination lists are duplicate-free (nomination caps and dedup are
enforced by the staking source, not by this core). -/
def statusTargetsNodup : StakerStatus → Prop
  | StakerStatus.nominator ts => ts.Nodup
  | _ => True

def SourceWF (src : StakingSource) : Prop :=
  (alKeys src).Nodup ∧ ∀ e ∈ src, statusTargetsNodup e.2.status

theorem SourceWF_nil : SourceWF [] :=
  ⟨List.nodup_nil, by intro e he; simp at he⟩

theorem SourceWF_targets {src : StakingSource} {who : Nat} {st : Stake} {ts : List Nat}
    (hwf : SourceWF src)
    (h : alGet src who = some ⟨st, StakerStatus.nominator ts⟩) : ts.Nodup := by
  have hm := alGet_mem h
  have := hwf.2 _ hm
  simpa [statusTargetsNodup] using this

theorem SourceWF_alSet {src : StakingSource} {who : Nat} (i' : StakerInfo)
    (hwf : SourceWF src) (hts : statusTargetsNodup i'.status) :
    SourceWF (alSet src who i') := by
  constructor
  · rw [alKeys_alSet]
    exact hwf.1
  · intro e he
    rcases mem_alSet he with he' | he'
    · rw [he']
      exact hts
    · exact hwf.2 e he'

theorem SourceWF_cons {src : StakingSource} {who : Nat} (st : Stake)
    (hwf : SourceWF src) (habs : alGet src who = none) :
    SourceWF ((who, ⟨st, StakerStatus.idle⟩) :: src) := by
  constructor
  · rw [alKeys, List.map_cons]
    exact List.nodup_cons.mpr ⟨alGet_none_iff.mp habs, hwf.1⟩
  · intro e he
    rcases List.mem_cons.mp he with he' | he'
    · rw [he']
      exact trivial
    · exact hwf.2 e he'

theorem stakeOf_alSet_self {src : StakingSource} {who : Nat} (i' : StakerInfo)
    (h : (alGet src who).isSome = true) :
    stakeOf (alSet src who i') who = some i'.stake := by
  simp [stakeOf, alGet_alSet_self h i']

theorem statusOf_alSet_self {src : StakingSource} {who : Nat} (i' : StakerInfo)
    (h : (alGet src who).isSome = true) :
    statusOf (alSet src who i') who = i'.status := by
  simp [statusOf, alGet_alSet_self h i']

/-- The initial tracker storage: everything empty. -/
def initState : TrackerState := ⟨[], [], []⟩

/-- The ledger = aggregate property of claim C1: every ledger entry (with
absent entries contributing 0) equals the target's true approval stake. -/
def LedgerAccurate (src : StakingSource) (s : TrackerState) : Prop :=
  ∀ t, (ledgerGetD s.ledger t : Int) = approvalOf src t

/-- Growth-only lifecycle transitions of the staking system, each paired with
the tracker hook(s) the spec documents for it.  The source and the tracker
evolve together; per spec section 2 a hook reads current truth from the
(already updated) source and receives the previous value as its argument.
The validator/nominator seeding transitions invoke `on_stake_update(who, None)`
from the same lifecycle transition, resolving the spec's open question about
ledger seeding in the way `on_stake_update::empty_lists` exercises (a fresh
validator/nominator receives an `on_stake_update` with `None` previous stake). -/
inductive GrowStep (toVote : Nat → Nat) :
    StakingSource → TrackerState → StakingSource → TrackerState → Prop where
  | bond (src : StakingSource) (s : TrackerState) (who : Nat) (st : Stake)
      (s' : TrackerState) :
      alGet src who = none →
      on_stake_update ((who, ⟨st, StakerStatus.idle⟩) :: src) toVote s who none = some s' →
      GrowStep toVote src s ((who, ⟨st, StakerStatus.idle⟩) :: src) s'
  | stakeChange (src : StakingSource) (s : TrackerState) (who : Nat) (oldSt newSt : Stake)
      (stat : StakerStatus) (s' : TrackerState) :
      alGet src who = some ⟨oldSt, stat⟩ →
      on_stake_update (alSet src who ⟨newSt, stat⟩) toVote s who (some oldSt) = some s' →
      GrowStep toVote src s (alSet src who ⟨newSt, stat⟩) s'
  | becomeValidator (src : StakingSource) (s : TrackerState) (who : Nat) (st : Stake)
      (s₁ s' : TrackerState) :
      alGet src who = some ⟨st, StakerStatus.idle⟩ →
      on_validator_add (alSet src who ⟨st, StakerStatus.validator⟩) toVote s who = some s₁ →
      on_stake_update (alSet src who ⟨st, StakerStatus.validator⟩) toVote s₁ who none
        = some s' →
      GrowStep toVote src s (alSet src who ⟨st, StakerStatus.validator⟩) s'
  | becomeNominator (src : StakingSource) (s : TrackerState) (who : Nat) (st : Stake)
      (ts : List Nat) (s₁ s' : TrackerState) :
      alGet src who = some ⟨st, StakerStatus.idle⟩ →
      ts.Nodup →
      on_nominator_update (alSet src who ⟨st, StakerStatus.nominator ts⟩) toVote s who []
        = some s₁ →
      on_stake_update (alSet src who ⟨st, StakerStatus.nominator ts⟩) toVote s₁ who none
        = some s' →
      GrowStep toVote src s (alSet src who ⟨st, StakerStatus.nominator ts⟩) s'
  | nominationShrink (src : StakingSource) (s : TrackerState) (who : Nat) (st : Stake)
      (ts nts : List Nat) (s' : TrackerState) :
      alGet src who = some ⟨st, StakerStatus.nominator ts⟩ →
      nts.Nodup →
      (∀ t, t ∈ nts → t ∈ ts) →
      on_nominator_update (alSet src who ⟨st, StakerStatus.nominator nts⟩) toVote s who ts
        = some s' →
      GrowStep toVote src s (alSet src who ⟨st, StakerStatus.nominator nts⟩) s'

/-- All documented lifecycle transitions: the growth transitions plus the
removal-side ones — chilling a validator or nominator (hooks
`on_validator_remove` / `on_nominator_remove`, which per spec section 4.3
touch only the Voter Ranking) and full withdrawal (`on_unstake`, an explicit
no-op). -/
inductive FullStep (toVote : Nat → Nat) :
    StakingSource → TrackerState → StakingSource → TrackerState → Prop where
  | grow (src : StakingSource) (s : TrackerState) (src' : StakingSource)
      (s' : TrackerState) :
      GrowStep toVote src s src' s' → FullStep toVote src s src' s'
  | chillValidator (src : StakingSource) (s : TrackerState) (who : Nat) (st : Stake) :
      alGet src who = some ⟨st, StakerStatus.validator⟩ →
      FullStep toVote src s (alSet src who ⟨st, StakerStatus.idle⟩)
        (on_validator_remove s who)
  | chillNominator (src : StakingSource) (s : TrackerState) (who : Nat) (st : Stake)
      (ts : List Nat) :
      alGet src who = some ⟨st, StakerStatus.nominator ts⟩ →
      FullStep toVote src s (alSet src who ⟨st, StakerStatus.idle⟩)
        (on_nominator_remove s who ts)
  | withdraw (src : StakingSource) (s : TrackerState) (who : Nat) (st : Stake) :
      alGet src who = some ⟨st, StakerStatus.idle⟩ →
      FullStep toVote src s (alRemove src who) (on_unstake s who)

/-- States reachable from empty structures through growth transitions only. -/
inductive ReachableGrow (toVote : Nat → Nat) : StakingSource → TrackerState → Prop where
  | init : ReachableGrow toVote [] initState
  | step (src : StakingSource) (s : TrackerState) (src' : StakingSource)
      (s' : TrackerState) :
      ReachableGrow toVote src s → GrowStep toVote src s src' s' →
      ReachableGrow toVote src' s'

/-- States reachable from empty structures through any documented transition. -/
inductive ReachableFull (toVote : Nat → Nat) : StakingSource → TrackerState → Prop where
  | init : ReachableFull toVote [] initState
  | step (src : StakingSource) (s : TrackerState) (src' : StakingSource)
      (s' : TrackerState) :
      ReachableFull toVote src s → FullStep toVote src s src' s' →
      ReachableFull toVote src' s'

theorem on_validator_add_keeps_ledger {src : StakingSource} {toVote : Nat → Nat}
    {s : TrackerState} {who : Nat} {s₁ : TrackerState}
    (h : on_validator_add src toVote s who = some s₁) :
    s₁.ledger = s.ledger := by
  unfold on_validator_add at h
  by_cases hc : rContains s.voterList who
  · rw [if_pos hc, Option.some.injEq] at h
    rw [← h]
  · rw [if_neg hc] at h
    cases hst : stakeOf src who with
    | none => rw [hst] at h; simp at h
    | some st =>
      rw [hst, Option.some.injEq] at h
      rw [← h]

theorem on_nominator_update_nil_keeps_ledger {src : StakingSource} {toVote : Nat → Nat}
    {s : TrackerState} {who : Nat} {st : Stake} {s₁ : TrackerState}
    (hst : stakeOf src who = some st)
    (h : on_nominator_update src toVote s who [] = some s₁) :
    s₁.ledger = s.ledger := by
  simp only [on_nominator_update, hst, List.filter_nil, updateTargets,
    Option.some.injEq] at h
  rw [← h]

theorem growStep_preserves (toVote : Nat → Nat) (src : StakingSource) (s : TrackerState)
    (src' : StakingSource) (s' : TrackerState)
    (hstep : GrowStep toVote src s src' s')
    (hwf : SourceWF src) (hacc : LedgerAccurate src s) :
    SourceWF src' ∧ LedgerAccurate src' s' := by
  cases hstep with
  | bond who st s' habs hcall =>
    refine ⟨SourceWF_cons st hwf habs, ?_⟩
    have hstake : stakeOf ((who, ⟨st, StakerStatus.idle⟩) :: src) who = some st := by
      simp [stakeOf]
    have hstatus : statusOf ((who, ⟨st, StakerStatus.idle⟩) :: src) who
        = StakerStatus.idle := by
      simp [statusOf]
    have hnoop := on_stake_update_idle _ toVote s who none st hstake hstatus
    have hss : s' = s := Option.some.inj (hcall.symm.trans hnoop)
    intro t
    rw [hss, approvalOf_cons, contribE_idle, zero_add]
    exact hacc t
  | stakeChange who oldSt newSt stat s' hget hcall =>
    have hIs : (alGet src who).isSome = true := by rw [hget]; rfl
    have hstake : stakeOf (alSet src who ⟨newSt, stat⟩) who = some newSt :=
      stakeOf_alSet_self _ hIs
    have hstatus : statusOf (alSet src who ⟨newSt, stat⟩) who = stat :=
      statusOf_alSet_self _ hIs
    have hwf' : SourceWF (alSet src who ⟨newSt, stat⟩) :=
      SourceWF_alSet _ hwf (hwf.2 _ (alGet_mem hget))
    refine ⟨hwf', ?_⟩
    have happ := fun t =>
      approvalOf_alSet (⟨newSt, stat⟩ : StakerInfo) hwf.1 hget t
    cases stat with
    | idle =>
      have hnoop := on_stake_update_idle _ toVote s who (some oldSt) newSt hstake hstatus
      have hss : s' = s := Option.some.inj (hcall.symm.trans hnoop)
      intro t
      rw [hss, happ t, contribE_idle, contribE_idle]
      rw [hacc t]
      ring
    | validator =>
      have hnid : statusOf (alSet src who ⟨newSt, StakerStatus.validator⟩) who
          ≠ StakerStatus.idle := by
        rw [hstatus]
        exact fun hc => StakerStatus.noConfusion hc
      have hnd : (stakeTargets (alSet src who ⟨newSt, StakerStatus.validator⟩) who).Nodup := by
        rw [stakeTargets_validator hstatus]
        exact List.nodup_singleton who
      obtain ⟨Ha, Hb, _, _⟩ := on_stake_update_spec _ toVote s who (some oldSt) newSt s'
        hstake hnid hnd hcall
      intro t
      by_cases hwho : t = who
      · subst hwho
        have hb := (Hb t (by rw [stakeTargets_validator hstatus]; exact List.mem_singleton_self t)).1
        rw [hb, hacc t, happ t, contribE_validator, contribE_validator]
        simp [prevActive]
      · have hnm : t ∉ stakeTargets (alSet src who ⟨newSt, StakerStatus.validator⟩) who := by
          rw [stakeTargets_validator hstatus]
          simp [hwho]
        have ha := (Ha t hnm).1
        show ((alGet s'.ledger t).getD 0 : Int) = _
        rw [ha]
        show ((ledgerGetD s.ledger t : Nat) : Int) = _
        rw [hacc t, happ t, contribE_validator, contribE_validator]
        have hnw : ¬ who = t := fun he => hwho he.symm
        simp [hnw]
    | nominator ts =>
      have hnts : ts.Nodup := SourceWF_targets hwf hget
      have hnid : statusOf (alSet src who ⟨newSt, StakerStatus.nominator ts⟩) who
          ≠ StakerStatus.idle := by
        rw [hstatus]
        exact fun hc => StakerStatus.noConfusion hc
      have hnd : (stakeTargets (alSet src who ⟨newSt, StakerStatus.nominator ts⟩) who).Nodup := by
        rw [stakeTargets_nominator hstatus]
        exact hnts
      obtain ⟨Ha, Hb, _, _⟩ := on_stake_update_spec _ toVote s who (some oldSt) newSt s'
        hstake hnid hnd hcall
      intro t
      by_cases hmem : t ∈ ts
      · have hb := (Hb t (by rw [stakeTargets_nominator hstatus]; exact hmem)).1
        rw [hb, hacc t, happ t, contribE_nominator, contribE_nominator]
        simp [hmem, prevActive]
      · have hnm : t ∉ stakeTargets (alSet src who ⟨newSt, StakerStatus.nominator ts⟩) who := by
          rw [stakeTargets_nominator hstatus]
          exact hmem
        have ha := (Ha t hnm).1
        show ((alGet s'.ledger t).getD 0 : Int) = _
        rw [ha]
        show ((ledgerGetD s.ledger t : Nat) : Int) = _
        rw [hacc t, happ t, contribE_nominator, contribE_nominator]
        simp [hmem]
  | becomeValidator who st s₁ s' hget hadd hcall =>
    have hIs : (alGet src who).isSome = true := by rw [hget]; rfl
    have hstake : stakeOf (alSet src who ⟨st, StakerStatus.validator⟩) who = some st :=
      stakeOf_alSet_self _ hIs
    have hstatus : statusOf (alSet src who ⟨st, StakerStatus.validator⟩) who
        = StakerStatus.validator := statusOf_alSet_self _ hIs
    refine ⟨SourceWF_alSet _ hwf trivial, ?_⟩
    have happ := fun t =>
      approvalOf_alSet (⟨st, StakerStatus.validator⟩ : StakerInfo) hwf.1 hget t
    have hled1 : s₁.ledger = s.ledger := on_validator_add_keeps_ledger hadd
    have hnid : statusOf (alSet src who ⟨st, StakerStatus.validator⟩) who
        ≠ StakerStatus.idle := by
      rw [hstatus]
      exact fun hc => StakerStatus.noConfusion hc
    have hnd : (stakeTargets (alSet src who ⟨st, StakerStatus.validator⟩) who).Nodup := by
      rw [stakeTargets_validator hstatus]
      exact List.nodup_singleton who
    obtain ⟨Ha, Hb, _, _⟩ := on_stake_update_spec _ toVote s₁ who none st s'
      hstake hnid hnd hcall
    intro t
    by_cases hwho : t = who
    · subst hwho
      have hb := (Hb t (by rw [stakeTargets_validator hstatus]; exact List.mem_singleton_self t)).1
      rw [hb]
      rw [show ledgerGetD s₁.ledger t = ledgerGetD s.ledger t from by unfold ledgerGetD; rw [hled1]]
      rw [hacc t, happ t, contribE_validator, contribE_idle]
      simp [prevActive]
    · have hnm : t ∉ stakeTargets (alSet src who ⟨st, StakerStatus.validator⟩) who := by
        rw [stakeTargets_validator hstatus]
        simp [hwho]
      have ha := (Ha t hnm).1
      show ((alGet s'.ledger t).getD 0 : Int) = _
      rw [ha, hled1]
      show ((ledgerGetD s.ledger t : Nat) : Int) = _
      rw [hacc t, happ t, contribE_validator, contribE_idle]
      have hnw : ¬ who = t := fun he => hwho he.symm
      simp [hnw]
  | becomeNominator who st ts s₁ s' hget hndts hnu hcall =>
    have hIs : (alGet src who).isSome = true := by rw [hget]; rfl
    have hstake : stakeOf (alSet src who ⟨st, StakerStatus.nominator ts⟩) who = some st :=
      stakeOf_alSet_self _ hIs
    have hstatus : statusOf (alSet src who ⟨st, StakerStatus.nominator ts⟩) who
        = StakerStatus.nominator ts := statusOf_alSet_self _ hIs
    refine ⟨SourceWF_alSet _ hwf hndts, ?_⟩
    have happ := fun t =>
      approvalOf_alSet (⟨st, StakerStatus.nominator ts⟩ : StakerInfo) hwf.1 hget t
    have hled1 : s₁.ledger = s.ledger := on_nominator_update_nil_keeps_ledger hstake hnu
    have hnid : statusOf (alSet src who ⟨st, StakerStatus.nominator ts⟩) who
        ≠ StakerStatus.idle := by
      rw [hstatus]
      exact fun hc => StakerStatus.noConfusion hc
    have hnd : (stakeTargets (alSet src who ⟨st, StakerStatus.nominator ts⟩) who).Nodup := by
      rw [stakeTargets_nominator hstatus]
      exact hndts
    obtain ⟨Ha, Hb, _, _⟩ := on_stake_update_spec _ toVote s₁ who none st s'
      hstake hnid hnd hcall
    intro t
    by_cases hmem : t ∈ ts
    · have hb := (Hb t (by rw [stakeTargets_nominator hstatus]; exact hmem)).1
      rw [hb]
      rw [show ledgerGetD s₁.ledger t = ledgerGetD s.ledger t from by unfold ledgerGetD; rw [hled1]]
      rw [hacc t, happ t, contribE_nominator, contribE_idle]
      simp [hmem, prevActive]
    · have hnm : t ∉ stakeTargets (alSet src who ⟨st, StakerStatus.nominator ts⟩) who := by
        rw [stakeTargets_nominator hstatus]
        exact hmem
      have ha := (Ha t hnm).1
      show ((alGet s'.ledger t).getD 0 : Int) = _
      rw [ha, hled1]
      show ((ledgerGetD s.ledger t : Nat) : Int) = _
      rw [hacc t, happ t, contribE_nominator, contribE_idle]
      simp [hmem]
  | nominationShrink who st ts nts s' hget hndnts hsub hcall =>
    have hIs : (alGet src who).isSome = true := by rw [hget]; rfl
    have hts : ts.Nodup := SourceWF_targets hwf hget
    have hstake : stakeOf (alSet src who ⟨st, StakerStatus.nominator nts⟩) who = some st :=
      stakeOf_alSet_self _ hIs
    have hstatus : statusOf (alSet src who ⟨st, StakerStatus.nominator nts⟩) who
        = StakerStatus.nominator nts := statusOf_alSet_self _ hIs
    refine ⟨SourceWF_alSet _ hwf hndnts, ?_⟩
    have happ := fun t =>
      approvalOf_alSet (⟨st, StakerStatus.nominator nts⟩ : StakerInfo) hwf.1 hget t
    have htargets : targetsOf (alSet src who ⟨st, StakerStatus.nominator nts⟩) who = nts := by
      simp [targetsOf, hstatus]
    obtain ⟨Ha, Hb, _, _⟩ := on_nominator_update_spec _ toVote s who ts st s'
      hstake hts hcall
    rw [htargets] at Ha Hb
    intro t
    by_cases h1 : t ∈ ts ∧ t ∉ nts
    · have hb := (Hb t h1.1 h1.2).1
      rw [hb, hacc t, happ t, contribE_nominator, contribE_nominator]
      simp [h1.1, h1.2]
      ring
    · have ha := (Ha t h1).1
      show ((alGet s'.ledger t).getD 0 : Int) = _
      rw [ha]
      show ((ledgerGetD s.ledger t : Nat) : Int) = _
      rw [hacc t, happ t, contribE_nominator, contribE_nominator]
      by_cases hnt : t ∈ nts
      · have hints : t ∈ ts := hsub t hnt
        simp [hnt, hints]
      · have hnots : t ∉ ts := fun hts' => h1 ⟨hts', hnt⟩
        simp [hnt, hnots]

theorem reachableGrow_invariant (toVote : Nat → Nat) (src : StakingSource)
    (s : TrackerState) (h : ReachableGrow toVote src s) :
    SourceWF src ∧ LedgerAccurate src s := by
  induction h with
  | init =>
    refine ⟨SourceWF_nil, ?_⟩
    intro t
    simp [initState, ledgerGetD, approvalOf]
  | step src s src' s' _ hstep ih =>
    exact growStep_preserves toVote src s src' s' hstep ih.1 ih.2

/-- C1 (amended): for every state reachable from empty structures through the
growth-side lifecycle transitions (bonding, stake changes, becoming a
validator or nominator — each seeded by the accompanying
`on_stake_update(who, None)` — and nomination shrinking), every target with a
ledger entry has `Ledger[t]` equal to `t`'s own active stake (if `t` is
currently a validator, else 0) plus the active stakes of every nominator
currently nominating `t`.  The unrestricted claim fails: removal-side
transitions break it (see the counterexample). -/
theorem ledger_matches_approval_of_reachable (toVote : Nat → Nat)
    (src : StakingSource) (s : TrackerState) (h : ReachableGrow toVote src s)
    (t : Nat) (v : Nat) (hv : alGet s.ledger t = some v) :
    (v : Int) = approvalOf src t := by
  have hacc := (reachableGrow_invariant toVote src s h).2 t
  rw [ledgerGetD, hv] at hacc
  simpa using hacc

/-- C1 witness: after bonding identity 10 with active stake 100 and promoting
it to validator (ledger seeded by the accompanying `on_stake_update`), the
ledger entry 100 equals 10's approval stake. -/
theorem ledger_matches_approval_witness :
    ((100 : Nat) : Int) = approvalOf [(10, ⟨⟨100, 100⟩, StakerStatus.validator⟩)] 10 := by
  have h1 : ReachableGrow id [(10, ⟨⟨100, 100⟩, StakerStatus.idle⟩)] initState :=
    ReachableGrow.step _ _ _ _ ReachableGrow.init
      (GrowStep.bond [] initState 10 ⟨100, 100⟩ initState rfl rfl)
  have hreach : ReachableGrow id [(10, ⟨⟨100, 100⟩, StakerStatus.validator⟩)]
      ⟨[(10, 100)], [(10, 100)], []⟩ :=
    ReachableGrow.step _ _ _ _ h1
      (GrowStep.becomeValidator [(10, ⟨⟨100, 100⟩, StakerStatus.idle⟩)] initState 10
        ⟨100, 100⟩ ⟨[], [(10, 100)], []⟩ ⟨[(10, 100)], [(10, 100)], []⟩ rfl rfl rfl)
  exact ledger_matches_approval_of_reachable id _ _ hreach 10 100 rfl

/-- C1 counterexample: the invariant does NOT hold for every state reachable
through the six hooks under their documented preconditions.  Nominator 20
(active 50) bonds, nominates target 10 (`Ledger[10] = 50`), then chills
(`on_nominator_remove`, which touches only the Voter Ranking): the entry
`Ledger[10] = 50` survives although 20 no longer nominates anyone, so the
entry no longer equals the aggregate (which is 0). -/
theorem ledger_invariant_fails_on_removal :
    ¬ (∀ (toVote : Nat → Nat) (src : StakingSource) (s : TrackerState),
        ReachableFull toVote src s →
        ∀ t v, alGet s.ledger t = some v → (v : Int) = approvalOf src t) := by
  intro hclaim
  have h1 : ReachableFull id [(20, ⟨⟨50, 50⟩, StakerStatus.idle⟩)] initState :=
    ReachableFull.step _ _ _ _ ReachableFull.init
      (FullStep.grow _ _ _ _ (GrowStep.bond [] initState 20 ⟨50, 50⟩ initState rfl rfl))
  have h2 : ReachableFull id [(20, ⟨⟨50, 50⟩, StakerStatus.nominator [10]⟩)]
      ⟨[(10, 50)], [(20, 50)], []⟩ :=
    ReachableFull.step _ _ _ _ h1
      (FullStep.grow _ _ _ _ (GrowStep.becomeNominator
        [(20, ⟨⟨50, 50⟩, StakerStatus.idle⟩)] initState 20 ⟨50, 50⟩ [10]
        ⟨[], [(20, 50)], []⟩ ⟨[(10, 50)], [(20, 50)], []⟩
        rfl (by decide) rfl rfl))
  have h3 : ReachableFull id [(20, ⟨⟨50, 50⟩, StakerStatus.idle⟩)]
      ⟨[(10, 50)], [], []⟩ :=
    ReachableFull.step _ _ _ _ h2
      (FullStep.chillNominator [(20, ⟨⟨50, 50⟩, StakerStatus.nominator [10]⟩)]
        ⟨[(10, 50)], [(20, 50)], []⟩ 20 ⟨50, 50⟩ [10] rfl)
  have hval := hclaim id _ _ h3 10 50 rfl
  have hne : ¬ (((50 : Nat) : Int)
      = approvalOf [(20, ⟨⟨50, 50⟩, StakerStatus.idle⟩)] 10) := by decide
  exact hne hval
